import Mathlib

/-!
Shallow embedding of `src/brute_force.py` (brute-force frequent-itemset
enumeration and association-rule derivation).

Modelling conventions:
* Items are drawn from an arbitrary linearly ordered type `α` (the Python code
  uses strings, which it only compares, hashes and sorts; the spec calls items
  opaque comparable labels).  Concrete witnesses instantiate `α := Char`, with
  characters standing for the one-letter item labels of the spec scenario.
* Python `float` arithmetic is modelled by exact rationals `ℚ`.
* A Python `frozenset` is represented by its canonically sorted duplicate-free
  list of elements.  The iteration order of a `frozenset` (observed by
  `tuple(cand)` in `frequent_itemsets_bruteforce` and by `list(L)` in
  `association_rules_from_frequents`) is NOT canonical in CPython: it depends
  on the per-process string hash seed.  Those two places therefore take the
  iteration order as an explicit function parameter (`tup`, `iterOrd`); an
  admissible parameter sends each canonical list to a permutation of itself,
  and one program run corresponds to one admissible choice.
* The Python `dict` `support_map` is an insertion-ordered association list.
* `sorted(...)` and `list.sort(...)` (Timsort, a stable sort) are modelled by
  `List.insertionSort`, which is also stable for a total preorder.
* The `while True:` loop of `frequent_itemsets_bruteforce` is modelled with
  fuel `|universe| + 1`; the loop always stops within that many levels because
  level `|universe| + 1` has no candidate combinations (claim C10).  The loop
  additionally returns, as pure instrumentation, the list of every candidate
  itemset it evaluated, which the level-stop claim C5 is stated against.
-/

attribute [local semireducible] Rat.mul Rat.inv Rat.add Rat.sub

namespace BruteForce

variable {α : Type} [LinearOrder α]

/-- `itertools.combinations(l, k)`: every length-`k` subsequence of `l`, in
the order `itertools` yields them (indices increasing lexicographically). -/
def combinations : Nat → List α → List (List α)
  | 0, _ => [[]]
  | _ + 1, [] => []
  | k + 1, x :: xs => (combinations k xs).map (fun c => x :: c) ++ combinations (k + 1) xs

/-- Python `sorted(...)` (a stable comparison sort). -/
def pySorted (l : List α) : List α := List.insertionSort (· ≤ ·) l

/-- Canonical representative of the Python `frozenset(l)`: the sorted
duplicate-free list of the elements of `l`. -/
def frozen (l : List α) : List α := pySorted l.dedup

/-- `_support_count(transactions, itemset)` of `src/brute_force.py`: the
number of transactions `t` with `itemset.issubset(t)`. -/
def support_count (transactions : List (List α)) (itemset : List α) : Nat :=
  transactions.countP (fun t => itemset.all (fun i => t.contains i))

/-- The support fraction `_support_count(...) / n_tx` computed at line 33 of
`src/brute_force.py` (Python float division, modelled exactly in `ℚ`; on an
empty transaction list Python would raise `ZeroDivisionError`, but claim C8
shows the division is never reached in that case — `ℚ` gives it the junk
value `0`). -/
def supportOf (transactions : List (List α)) (itemset : List α) : ℚ :=
  (support_count transactions itemset : ℚ) / (transactions.length : ℚ)

/-- `sorted({i for t in transactions for i in t})`: the sorted universe of
distinct items. -/
def uniqueItems (transactions : List (List α)) : List α := frozen transactions.flatten

/-- One entry of the `results` list: the dict `{"itemset": tuple(cand),
"support": sup}`. -/
structure FreqRecord (α : Type) where
  itemset : List α
  support : ℚ
deriving DecidableEq

/-- The `(cand, sup)` pairs retained at level `k`: all size-`k` combinations
of the universe whose support reaches `min_support`, in combination order.
These are exactly the entries the level-`k` pass of the loop appends to both
`support_map` and (after applying `tuple(...)`) `results`. -/
def levelEvals (transactions : List (List α)) (min_support : ℚ) (univ : List α)
    (k : Nat) : List (List α × ℚ) :=
  (combinations k univ).filterMap (fun cand =>
    if min_support ≤ supportOf transactions cand then
      some (cand, supportOf transactions cand)
    else none)

/-- The `while True:` loop of `frequent_itemsets_bruteforce`, starting at
level `k`, with explicit fuel.  Components of the result:
`results` (records with `tup` modelling the frozenset iteration order that
`tuple(cand)` observes), `support_map`, and — instrumentation only — the list
of every candidate evaluated (including those of the final, empty level at
which the loop breaks). -/
def bruteLoop (tup : List α → List α) (transactions : List (List α))
    (min_support : ℚ) (univ : List α) :
    Nat → Nat → List (FreqRecord α) × List (List α × ℚ) × List (List α)
  | 0, _ => ([], [], [])
  | fuel + 1, k =>
    let freq := levelEvals transactions min_support univ k
    if freq = [] then ([], [], combinations k univ)
    else
      let rest := bruteLoop tup transactions min_support univ fuel (k + 1)
      (freq.map (fun p => ⟨tup p.1, p.2⟩) ++ rest.1,
       freq ++ rest.2.1,
       combinations k univ ++ rest.2.2)

/-- `frequent_itemsets_bruteforce(transactions, min_support)` of
`src/brute_force.py`.  `tup` is the frozenset iteration order used by
`tuple(cand)` (hash-seed dependent in CPython; `fun l => l` is the run in
which every frozenset happens to iterate in sorted order).  Fuel
`|universe| + 1` is sufficient: the loop always breaks by then (claim C10). -/
def frequent_itemsets_bruteforce (tup : List α → List α)
    (transactions : List (List α)) (min_support : ℚ) :
    List (FreqRecord α) × List (List α × ℚ) :=
  let univ := uniqueItems transactions
  let r := bruteLoop tup transactions min_support univ (univ.length + 1) 1
  (r.1, r.2.1)

/-- Every candidate itemset on which the enumerator loop computes a support
(instrumentation output of `bruteLoop`; independent of the iteration order). -/
def evaluatedCandidates (transactions : List (List α)) (min_support : ℚ) :
    List (List α) :=
  let univ := uniqueItems transactions
  (bruteLoop (fun l => l) transactions min_support univ (univ.length + 1) 1).2.2

/-- One entry of the rules list: the dict with keys `antecedent`,
`consequent`, `support`, `confidence`. -/
structure Rule (α : Type) where
  antecedent : List α
  consequent : List α
  support : ℚ
  confidence : ℚ
deriving DecidableEq

/-- `support_map.get(key)`: first-match lookup in the insertion-ordered
association list modelling the Python dict. -/
def dictGet (support_map : List (List α × ℚ)) (key : List α) : Option ℚ :=
  (support_map.find? (fun p => decide (p.1 = key))).map (fun p => p.2)

/-- `a` may come before `b` under the Python sort key
`(-confidence, -support, antecedent)` (lexicographic, ascending): the sort
relation of `rules.sort(key=...)` at line 77 of `src/brute_force.py`. -/
def ruleLE (a b : Rule α) : Prop :=
  b.confidence < a.confidence ∨
    (a.confidence = b.confidence ∧
      (b.support < a.support ∨
        (a.support = b.support ∧ a.antecedent ≤ b.antecedent)))

instance : DecidableRel (@ruleLE α _) := fun a b =>
  inferInstanceAs (Decidable (_ ∨ _))

instance : IsTotal (Rule α) ruleLE where
  total a b := by
    unfold ruleLE
    rcases lt_trichotomy a.confidence b.confidence with h | h | h
    · exact Or.inr (Or.inl h)
    · rcases lt_trichotomy a.support b.support with h2 | h2 | h2
      · exact Or.inr (Or.inr ⟨h.symm, Or.inl h2⟩)
      · rcases le_total a.antecedent b.antecedent with h3 | h3
        · exact Or.inl (Or.inr ⟨h, Or.inr ⟨h2, h3⟩⟩)
        · exact Or.inr (Or.inr ⟨h.symm, Or.inr ⟨h2.symm, h3⟩⟩)
      · exact Or.inl (Or.inr ⟨h, Or.inl h2⟩)
    · exact Or.inl (Or.inl h)

instance : IsTrans (Rule α) ruleLE where
  trans a b c hab hbc := by
    unfold ruleLE at *
    rcases hab with h1 | ⟨e1, h1⟩
    · rcases hbc with h2 | ⟨e2, h2⟩
      · exact Or.inl (h2.trans h1)
      · exact Or.inl (e2 ▸ h1)
    · rcases hbc with h2 | ⟨e2, h2⟩
      · exact Or.inl (e1 ▸ h2)
      · refine Or.inr ⟨e1.trans e2, ?_⟩
        rcases h1 with h1 | ⟨f1, h1⟩
        · rcases h2 with h2 | ⟨f2, h2⟩
          · exact Or.inl (h2.trans h1)
          · exact Or.inl (f2 ▸ h1)
        · rcases h2 with h2 | ⟨f2, h2⟩
          · exact Or.inl (f1 ▸ h2)
          · exact Or.inr ⟨f1.trans f2, h1.trans h2⟩

/-- The `rules` list of `association_rules_from_frequents` before the final
sort: for each table itemset `L` of size at least 2 (in table order), for
each antecedent size `r` in `range(1, len(items))`, for each `r`-combination
of `items = list(L)`, the emitted rule, if any.  `iterOrd` is the frozenset
iteration order observed by `list(L)` (hash-seed dependent in CPython). -/
def rulesUnsorted (iterOrd : List α → List α)
    (support_map : List (List α × ℚ)) (min_confidence : ℚ) : List (Rule α) :=
  let frequents := (support_map.map Prod.fst).filter (fun iset => 2 ≤ iset.length)
  frequents.flatMap (fun L =>
    let L_support := (dictGet support_map L).getD 0
    let items := iterOrd L
    (List.range' 1 (items.length - 1)).flatMap (fun r =>
      (combinations r items).filterMap (fun antecedent =>
        let A := frozen antecedent
        let B := L.filter (fun x => decide (x ∉ A))
        if B = [] then none
        else
          match dictGet support_map A with
          | none => none
          | some sup_A =>
            if sup_A = 0 then none
            else
              let confidence := L_support / sup_A
              if min_confidence ≤ confidence then
                some ⟨pySorted A, pySorted B, L_support, confidence⟩
              else none)))

/-- `association_rules_from_frequents(support_map, min_confidence)` of
`src/brute_force.py`: the generated rules, stably sorted by the key
`(-confidence, -support, antecedent)`. -/
def association_rules_from_frequents (iterOrd : List α → List α)
    (support_map : List (List α × ℚ)) (min_confidence : ℚ) : List (Rule α) :=
  List.insertionSort ruleLE (rulesUnsorted iterOrd support_map min_confidence)

/-- The per-rule validity property of claim C4: non-empty disjoint sorted
antecedent and consequent whose union is a size-`≥ 2` itemset present in the
support table, with the recorded support and a confidence
`support(union) / support(antecedent)` that reaches the threshold. -/
def RuleValid (support_map : List (List α × ℚ)) (min_confidence : ℚ)
    (ru : Rule α) : Prop :=
  ru.antecedent ≠ [] ∧ ru.consequent ≠ [] ∧
  (∀ x ∈ ru.antecedent, x ∉ ru.consequent) ∧
  List.Sorted (· ≤ ·) ru.antecedent ∧ List.Sorted (· ≤ ·) ru.consequent ∧
  (∃ L, L ∈ support_map.map Prod.fst ∧ 2 ≤ L.length ∧
    (∀ x, x ∈ L ↔ x ∈ ru.antecedent ∨ x ∈ ru.consequent) ∧
    dictGet support_map L = some ru.support) ∧
  (∃ sa, dictGet support_map ru.antecedent = some sa ∧ sa ≠ 0 ∧
    ru.confidence = ru.support / sa) ∧
  min_confidence ≤ ru.confidence

/-- The concrete spec scenario: transactions
`[{A,B}, {A,B,C}, {A}, {B,C}]`, with items as characters. -/
def scenarioTx : List (List Char) := [['A','B'], ['A','B','C'], ['A'], ['B','C']]

/-! ### Helper lemmas about `combinations` -/

theorem mem_combinations : ∀ {k : Nat} {l s : List α},
    s ∈ combinations k l ↔ s.Sublist l ∧ s.length = k := by
  intro k l
  induction l generalizing k with
  | nil =>
    intro s
    cases k with
    | zero =>
      simp only [combinations, List.mem_singleton, List.sublist_nil]
      constructor
      · rintro rfl; exact ⟨rfl, rfl⟩
      · rintro ⟨rfl, _⟩; rfl
    | succ n =>
      simp only [combinations, List.not_mem_nil, false_iff, not_and, List.sublist_nil]
      rintro rfl
      simp
  | cons x xs ih =>
    intro s
    cases k with
    | zero =>
      simp only [combinations, List.mem_singleton]
      constructor
      · rintro rfl; exact ⟨List.nil_sublist _, rfl⟩
      · rintro ⟨_, hlen⟩; exact List.eq_nil_of_length_eq_zero hlen
    | succ n =>
      simp only [combinations, List.mem_append, List.mem_map]
      constructor
      · rintro (⟨c, hc, rfl⟩ | h)
        · obtain ⟨hsub, hlen⟩ := ih.mp hc
          exact ⟨hsub.cons₂ x, by simp [hlen]⟩
        · obtain ⟨hsub, hlen⟩ := ih.mp h
          exact ⟨hsub.cons x, hlen⟩
      · rintro ⟨hsub, hlen⟩
        rcases List.sublist_cons_iff.mp hsub with h | ⟨r, rfl, hr⟩
        · exact Or.inr (ih.mpr ⟨h, hlen⟩)
        · exact Or.inl ⟨r, ih.mpr ⟨hr, by simpa using hlen⟩, rfl⟩

theorem combinations_eq_nil {k : Nat} {l : List α} (h : l.length < k) :
    combinations k l = [] := by
  rw [List.eq_nil_iff_forall_not_mem]
  intro s hs
  obtain ⟨hsub, hlen⟩ := mem_combinations.mp hs
  have := hsub.length_le
  omega

theorem combinations_one (l : List α) :
    combinations 1 l = l.map (fun a => [a]) := by
  induction l with
  | nil => rfl
  | cons x xs ih => simp [combinations, ih]

/-! ### Helper lemmas about `pySorted` and `frozen` -/

theorem pySorted_perm (l : List α) : (pySorted l).Perm l :=
  List.perm_insertionSort _ l

theorem pySorted_sorted (l : List α) : List.Sorted (· ≤ ·) (pySorted l) :=
  List.sorted_insertionSort _ l

theorem frozen_nodup (l : List α) : (frozen l).Nodup :=
  ((pySorted_perm _).nodup_iff).mpr (List.nodup_dedup l)

theorem frozen_sorted_lt (l : List α) : List.Sorted (· < ·) (frozen l) :=
  (pySorted_sorted _).lt_of_le (frozen_nodup l)

theorem mem_frozen {a : α} {l : List α} : a ∈ frozen l ↔ a ∈ l := by
  rw [frozen, (pySorted_perm _).mem_iff, List.mem_dedup]

theorem frozen_ne_nil {l : List α} (h : l ≠ []) : frozen l ≠ [] := by
  obtain ⟨x, hx⟩ := List.exists_mem_of_ne_nil l h
  intro hnil
  exact absurd (mem_frozen.mpr hx) (by simp [hnil])

/-- A strictly sorted list is a sublist of any strictly sorted list containing
all of its elements. -/
theorem sorted_lt_sublist : ∀ {s l : List α}, List.Sorted (· < ·) s →
    List.Sorted (· < ·) l → (∀ x ∈ s, x ∈ l) → s.Sublist l := by
  intro s l
  induction l generalizing s with
  | nil =>
    intro _ _ hsub
    cases s with
    | nil => exact List.Sublist.refl _
    | cons a as => exact absurd (hsub a (by simp)) (List.not_mem_nil a)
  | cons b bs ih =>
    intro hs hl hsub
    cases s with
    | nil => exact List.nil_sublist _
    | cons a as =>
      have hbbs : ∀ y ∈ bs, b < y := List.rel_of_sorted_cons hl
      have haas : ∀ y ∈ as, a < y := List.rel_of_sorted_cons hs
      by_cases hab : a = b
      · subst hab
        refine List.Sublist.cons₂ a (ih hs.of_cons hl.of_cons ?_)
        intro x hx
        rcases List.mem_cons.mp (hsub x (List.mem_cons_of_mem a hx)) with h | h
        · exact absurd (h ▸ haas x hx) (lt_irrefl x)
        · exact h
      · have hamem : a ∈ bs := by
          rcases List.mem_cons.mp (hsub a (by simp)) with h2 | h2
          · exact absurd h2 hab
          · exact h2
        have hasub : ∀ x ∈ a :: as, x ∈ bs := by
          intro x hx
          rcases List.mem_cons.mp (hsub x hx) with h | h
          · exfalso
            rcases List.mem_cons.mp hx with rfl | hxas
            · exact hab h
            · have hax : a < x := haas x hxas
              have hba : b < a := hbbs a hamem
              exact absurd (h ▸ hax) (not_lt.mpr (le_of_lt hba))
          · exact h
        exact (ih hs hl.of_cons hasub).cons b

/-! ### Helper lemmas about support -/

theorem support_count_mono (txs : List (List α)) {A B : List α}
    (h : ∀ x ∈ A, x ∈ B) : support_count txs B ≤ support_count txs A := by
  apply List.countP_mono_left
  intro t _ hB
  rw [List.all_eq_true] at hB ⊢
  intro i hi
  exact hB i (h i hi)

theorem supportOf_mono (txs : List (List α)) {A B : List α}
    (h : ∀ x ∈ A, x ∈ B) : supportOf txs B ≤ supportOf txs A :=
  div_le_div_of_nonneg_right (by exact_mod_cast support_count_mono txs h)
    (by positivity)

/-! ### Helper lemmas about `levelEvals` -/

theorem mem_levelEvals {txs : List (List α)} {ms : ℚ} {univ : List α} {k : Nat}
    {p : List α × ℚ} :
    p ∈ levelEvals txs ms univ k ↔
      p.1 ∈ combinations k univ ∧ ms ≤ supportOf txs p.1 ∧
        p.2 = supportOf txs p.1 := by
  obtain ⟨c, s⟩ := p
  simp only [levelEvals, List.mem_filterMap]
  constructor
  · rintro ⟨a, ha, hf⟩
    by_cases hle : ms ≤ supportOf txs a
    · rw [if_pos hle] at hf
      simp only [Option.some.injEq, Prod.mk.injEq] at hf
      obtain ⟨rfl, rfl⟩ := hf
      exact ⟨ha, hle, rfl⟩
    · rw [if_neg hle] at hf
      cases hf
  · rintro ⟨hc, hs, rfl⟩
    exact ⟨c, hc, by rw [if_pos hs]⟩

theorem levelEvals_eq_nil_of_lt {txs : List (List α)} {ms : ℚ} {univ : List α}
    {k : Nat} (h : univ.length < k) : levelEvals txs ms univ k = [] := by
  rw [levelEvals, combinations_eq_nil h, List.filterMap_nil]

/-- If some level-`(k+1)` candidate is retained, then some level-`k`
candidate is retained: dropping one element of a retained itemset keeps the
support at or above the threshold (support monotonicity). -/
theorem levelEvals_ne_nil_of_succ {txs : List (List α)} {ms : ℚ} {univ : List α}
    {k : Nat} (h : levelEvals txs ms univ (k + 1) ≠ []) :
    levelEvals txs ms univ k ≠ [] := by
  obtain ⟨p, hp⟩ := List.exists_mem_of_ne_nil _ h
  obtain ⟨c, s⟩ := p
  obtain ⟨hc, hsup, _⟩ := mem_levelEvals.mp hp
  obtain ⟨hsub, hlen⟩ := mem_combinations.mp hc
  cases c with
  | nil => simp at hlen
  | cons x t =>
    have htsub : t.Sublist univ := (List.sublist_cons_self x t).trans hsub
    have htlen : t.length = k := by simpa using hlen
    have htsup : ms ≤ supportOf txs t :=
      le_trans hsup (supportOf_mono txs (fun y hy => List.mem_cons_of_mem x hy))
    intro hnil
    have hmem : (t, supportOf txs t) ∈ levelEvals txs ms univ k :=
      mem_levelEvals.mpr ⟨mem_combinations.mpr ⟨htsub, htlen⟩, htsup, rfl⟩
    rw [hnil] at hmem
    exact List.not_mem_nil _ hmem

theorem levelEvals_ne_nil_of_le {txs : List (List α)} {ms : ℚ} {univ : List α}
    {k m : Nat} (hkm : k ≤ m) (h : levelEvals txs ms univ m ≠ []) :
    levelEvals txs ms univ k ≠ [] := by
  induction m with
  | zero => exact Nat.le_zero.mp hkm ▸ h
  | succ n ih =>
    rcases Nat.lt_or_ge k (n + 1) with hlt | hge
    · exact ih (Nat.lt_succ_iff.mp hlt) (levelEvals_ne_nil_of_succ h)
    · exact Nat.le_antisymm hkm hge ▸ h

/-! ### Characterisation of the enumerator loop -/

theorem bruteLoop_eq (tup : List α → List α) (txs : List (List α)) (ms : ℚ)
    (univ : List α) (fuel : Nat) : ∀ k : Nat, ∃ j, j ≤ fuel ∧
      (bruteLoop tup txs ms univ fuel k).1 =
        (List.range' k j).flatMap
          (fun m => (levelEvals txs ms univ m).map (fun p => ⟨tup p.1, p.2⟩)) ∧
      (bruteLoop tup txs ms univ fuel k).2.1 =
        (List.range' k j).flatMap (levelEvals txs ms univ) ∧
      (∀ m, k ≤ m → m < k + j → levelEvals txs ms univ m ≠ []) ∧
      (j < fuel → levelEvals txs ms univ (k + j) = [] ∧
        (bruteLoop tup txs ms univ fuel k).2.2 =
          (List.range' k (j + 1)).flatMap (fun m => combinations m univ)) ∧
      (j = fuel → (bruteLoop tup txs ms univ fuel k).2.2 =
        (List.range' k j).flatMap (fun m => combinations m univ)) := by
  induction fuel with
  | zero =>
    intro k
    refine ⟨0, le_refl 0, by simp [bruteLoop], by simp [bruteLoop], ?_, ?_, ?_⟩
    · intro m h1 h2; omega
    · intro h; exact absurd h (lt_irrefl 0)
    · intro _; simp [bruteLoop]
  | succ fuel ih =>
    intro k
    by_cases hk : levelEvals txs ms univ k = []
    · refine ⟨0, Nat.zero_le _, by simp [bruteLoop, hk], by simp [bruteLoop, hk],
        ?_, ?_, ?_⟩
      · intro m h1 h2; omega
      · intro _
        refine ⟨by simpa using hk, ?_⟩
        simp [bruteLoop, hk, List.range'_one]
      · intro h; exact absurd h.symm (Nat.succ_ne_zero fuel)
    · obtain ⟨j, hj, h1, h2, hne, hlt, heq⟩ := ih (k + 1)
      have hloop : bruteLoop tup txs ms univ (fuel + 1) k =
          ((levelEvals txs ms univ k).map (fun p => ⟨tup p.1, p.2⟩) ++
            (bruteLoop tup txs ms univ fuel (k + 1)).1,
           levelEvals txs ms univ k ++ (bruteLoop tup txs ms univ fuel (k + 1)).2.1,
           combinations k univ ++ (bruteLoop tup txs ms univ fuel (k + 1)).2.2) := by
        simp [bruteLoop, hk]
      refine ⟨j + 1, by omega, ?_, ?_, ?_, ?_, ?_⟩
      · rw [hloop, List.range'_succ, List.flatMap_cons, h1]
      · rw [hloop, List.range'_succ, List.flatMap_cons, h2]
      · intro m hm1 hm2
        rcases Nat.eq_or_lt_of_le hm1 with rfl | hlt2
        · exact hk
        · exact hne m hlt2 (by omega)
      · intro hfuel
        have hjf : j < fuel := by omega
        obtain ⟨he, hev⟩ := hlt hjf
        refine ⟨?_, ?_⟩
        · have harith : k + (j + 1) = (k + 1) + j := by omega
          rw [harith]; exact he
        · rw [hloop, List.range'_succ, List.flatMap_cons, hev]
      · intro hfuel
        have hjf : j = fuel := by omega
        rw [hloop, List.range'_succ, List.flatMap_cons, heq hjf]

/-- The enumerator characterised: there is a last successful level `j` (at
most `|universe|`) such that the records and the support table are the
concatenation of the per-level retained entries for levels `1..j`, every one
of those levels retained something, and level `j + 1` retained nothing. -/
theorem brute_spec (tup : List α → List α) (txs : List (List α)) (ms : ℚ) :
    ∃ j, j ≤ (uniqueItems txs).length ∧
      (frequent_itemsets_bruteforce tup txs ms).1 =
        (List.range' 1 j).flatMap
          (fun m => (levelEvals txs ms (uniqueItems txs) m).map
            (fun p => ⟨tup p.1, p.2⟩)) ∧
      (frequent_itemsets_bruteforce tup txs ms).2 =
        (List.range' 1 j).flatMap (levelEvals txs ms (uniqueItems txs)) ∧
      (∀ m, 1 ≤ m → m ≤ j → levelEvals txs ms (uniqueItems txs) m ≠ []) ∧
      levelEvals txs ms (uniqueItems txs) (1 + j) = [] := by
  obtain ⟨j, hj, h1, h2, hne, hlt, _⟩ :=
    bruteLoop_eq tup txs ms (uniqueItems txs) ((uniqueItems txs).length + 1) 1
  have hjlt : j < (uniqueItems txs).length + 1 := by
    rcases Nat.lt_or_ge j ((uniqueItems txs).length + 1) with h | h
    · exact h
    · exfalso
      have := hne ((uniqueItems txs).length + 1) (by omega) (by omega)
      exact this (levelEvals_eq_nil_of_lt (by omega))
  refine ⟨j, by omega, h1, h2, ?_, (hlt hjlt).1⟩
  intro m hm1 hm2
  exact hne m hm1 (by omega)

/-- The evaluated-candidate instrumentation characterised: the loop evaluates
exactly the combinations of the levels `1..j+1`, where `j` is the last
successful level. -/
theorem evaluated_spec (txs : List (List α)) (ms : ℚ) :
    ∃ j, (∀ m, 1 ≤ m → m ≤ j → levelEvals txs ms (uniqueItems txs) m ≠ []) ∧
      levelEvals txs ms (uniqueItems txs) (1 + j) = [] ∧
      evaluatedCandidates txs ms =
        (List.range' 1 (j + 1)).flatMap
          (fun m => combinations m (uniqueItems txs)) := by
  obtain ⟨j, hj, _, _, hne, hlt, _⟩ :=
    bruteLoop_eq (fun l => l) txs ms (uniqueItems txs)
      ((uniqueItems txs).length + 1) 1
  have hjlt : j < (uniqueItems txs).length + 1 := by
    rcases Nat.lt_or_ge j ((uniqueItems txs).length + 1) with h | h
    · exact h
    · exfalso
      have := hne ((uniqueItems txs).length + 1) (by omega) (by omega)
      exact this (levelEvals_eq_nil_of_lt (by omega))
  exact ⟨j, fun m hm1 hm2 => hne m hm1 (by omega), (hlt hjlt).1, (hlt hjlt).2⟩

/-- Soundness of the enumerator: every support-table entry is a non-empty
combination drawn from the sorted universe, recorded with its exact support,
which reaches the threshold. -/
theorem brute_sound (tup : List α → List α) (txs : List (List α)) (ms : ℚ) :
    ∀ p ∈ (frequent_itemsets_bruteforce tup txs ms).2,
      p.1.Sublist (uniqueItems txs) ∧ p.1 ≠ [] ∧
      p.2 = supportOf txs p.1 ∧ ms ≤ p.2 := by
  intro p hp
  obtain ⟨j, _, _, h2, _, _⟩ := brute_spec tup txs ms
  rw [h2] at hp
  obtain ⟨m, hm, hpm⟩ := List.mem_flatMap.mp hp
  obtain ⟨hc, hsup, hval⟩ := mem_levelEvals.mp hpm
  obtain ⟨hsub, hlen⟩ := mem_combinations.mp hc
  have hm1 : 1 ≤ m := (List.mem_range'_1.mp hm).1
  refine ⟨hsub, ?_, hval, hval ▸ hsup⟩
  intro hnil
  rw [hnil] at hlen
  simp only [List.length_nil] at hlen
  omega

/-- Completeness of the enumerator: every non-empty canonical itemset over
the universe whose support reaches the threshold is recorded, in the support
table and (through `tup`) in the record list, with its exact support.  The
level-wise stop loses nothing, because supports are monotone: every level up
to `|S|` retains at least one candidate (a sub-itemset of `S`). -/
theorem brute_complete (tup : List α → List α) (txs : List (List α)) (ms : ℚ)
    {S : List α} (hS : S ≠ []) (hsort : List.Sorted (· < ·) S)
    (hsub : ∀ x ∈ S, x ∈ uniqueItems txs) (hsup : ms ≤ supportOf txs S) :
    (S, supportOf txs S) ∈ (frequent_itemsets_bruteforce tup txs ms).2 ∧
      (⟨tup S, supportOf txs S⟩ : FreqRecord α) ∈
        (frequent_itemsets_bruteforce tup txs ms).1 := by
  obtain ⟨j, hjle, h1, h2, hne, hend⟩ := brute_spec tup txs ms
  have hsl : S.Sublist (uniqueItems txs) :=
    sorted_lt_sublist hsort (frozen_sorted_lt _) hsub
  have hcomb : S ∈ combinations S.length (uniqueItems txs) :=
    mem_combinations.mpr ⟨hsl, rfl⟩
  have hmemL : (S, supportOf txs S) ∈ levelEvals txs ms (uniqueItems txs) S.length :=
    mem_levelEvals.mpr ⟨hcomb, hsup, rfl⟩
  have hlen1 : 1 ≤ S.length := by
    cases S with
    | nil => exact absurd rfl hS
    | cons a t => simp
  have hlenj : S.length ≤ j := by
    by_contra hgt
    push_neg at hgt
    have hSne : levelEvals txs ms (uniqueItems txs) S.length ≠ [] := by
      intro hnil
      rw [hnil] at hmemL
      exact List.not_mem_nil _ hmemL
    have hne2 : levelEvals txs ms (uniqueItems txs) (1 + j) ≠ [] :=
      levelEvals_ne_nil_of_le (by omega) hSne
    exact hne2 hend
  have hmrange : S.length ∈ List.range' 1 j :=
    List.mem_range'_1.mpr ⟨hlen1, by omega⟩
  constructor
  · rw [h2]
    exact List.mem_flatMap.mpr ⟨S.length, hmrange, hmemL⟩
  · rw [h1]
    exact List.mem_flatMap.mpr
      ⟨S.length, hmrange, List.mem_map.mpr ⟨(S, supportOf txs S), hmemL, rfl⟩⟩

/-- Records drawn level-by-level from an ascending level range have
non-decreasing itemset sizes. -/
theorem pairwise_length_flatMap (f : Nat → List (FreqRecord α))
    (hf : ∀ m, ∀ r ∈ f m, r.itemset.length = m) :
    ∀ (j s : Nat),
      List.Pairwise (fun a b => a.itemset.length ≤ b.itemset.length)
        ((List.range' s j).flatMap f) := by
  intro j
  induction j with
  | zero => intro s; simp
  | succ j ih =>
    intro s
    rw [List.range'_succ, List.flatMap_cons, List.pairwise_append]
    refine ⟨?_, ih (s + 1), ?_⟩
    · apply List.pairwise_of_forall_mem_list
      intro a ha b hb
      rw [hf s a ha, hf s b hb]
    · intro a ha b hb
      obtain ⟨m, hm, hbm⟩ := List.mem_flatMap.mp hb
      have hm1 : s + 1 ≤ m := (List.mem_range'_1.mp hm).1
      rw [hf s a ha, hf m b hbm]
      omega

/-- C2.  For every non-empty transaction list and min_support in (0,1], every
non-empty canonical itemset drawn from the item universe whose support
reaches min_support (including the case of exact equality, since the
comparison is `>=`) appears in the output of `frequent_itemsets_bruteforce`
with that support — in the support table and, through the frozenset
iteration order `tup`, in the record list — and conversely every recorded
support-table entry has support at least min_support. -/
theorem claimC2_threshold_inclusion (tup : List α → List α)
    (txs : List (List α)) (ms : ℚ) (S : List α)
    (htx : txs ≠ []) (hms0 : 0 < ms) (hms1 : ms ≤ 1)
    (hS : S ≠ []) (hsort : List.Sorted (· < ·) S)
    (huniv : ∀ x ∈ S, x ∈ uniqueItems txs) :
    (ms ≤ supportOf txs S →
      (S, supportOf txs S) ∈ (frequent_itemsets_bruteforce tup txs ms).2 ∧
      (⟨tup S, supportOf txs S⟩ : FreqRecord α) ∈
        (frequent_itemsets_bruteforce tup txs ms).1) ∧
    (∀ p ∈ (frequent_itemsets_bruteforce tup txs ms).2, ms ≤ p.2) := by
  constructor
  · intro hsup
    exact brute_complete tup txs ms hS hsort huniv hsup
  · intro p hp
    exact (brute_sound tup txs ms p hp).2.2.2

/-- Witness for C2 on the spec scenario: the boundary itemset `{B, C}` has
support exactly 1/2 = min_support and is recorded with support 1/2. -/
theorem claimC2_threshold_inclusion_witness :
    (scenarioTx ≠ [] ∧ (0:ℚ) < 1/2 ∧ (1:ℚ)/2 ≤ 1 ∧ (['B','C'] : List Char) ≠ [] ∧
      List.Sorted (· < ·) (['B','C'] : List Char) ∧
      (∀ x ∈ (['B','C'] : List Char), x ∈ uniqueItems scenarioTx)) ∧
    (((1:ℚ)/2 ≤ supportOf scenarioTx ['B','C'] →
      (['B','C'], supportOf scenarioTx ['B','C']) ∈
        (frequent_itemsets_bruteforce (fun l => l) scenarioTx (1/2)).2 ∧
      (⟨['B','C'], supportOf scenarioTx ['B','C']⟩ : FreqRecord Char) ∈
        (frequent_itemsets_bruteforce (fun l => l) scenarioTx (1/2)).1) ∧
    (∀ p ∈ (frequent_itemsets_bruteforce (fun l => l) scenarioTx (1/2)).2,
      (1:ℚ)/2 ≤ p.2)) :=
  ⟨⟨by decide, by decide, by decide, by decide, by decide, by decide⟩,
    claimC2_threshold_inclusion (fun l => l) scenarioTx (1/2) ['B','C']
      (by decide) (by decide) (by decide) (by decide) (by decide) (by decide)⟩

/-- C5.  If no size-`k` itemset is retained (level `k` of the enumerator
keeps nothing), then neither the support table, nor the record list, nor the
set of candidates the loop ever evaluates contains an itemset of any size
greater than `k`; in particular no candidate of size `k + 1` is evaluated. -/
theorem claimC5_level_stop (tup : List α → List α) (txs : List (List α))
    (ms : ℚ) (k : Nat) (htup : ∀ l : List α, (tup l).Perm l) (hk : 1 ≤ k)
    (hempty : levelEvals txs ms (uniqueItems txs) k = []) :
    (∀ p ∈ (frequent_itemsets_bruteforce tup txs ms).2, p.1.length ≤ k) ∧
    (∀ r ∈ (frequent_itemsets_bruteforce tup txs ms).1, r.itemset.length ≤ k) ∧
    (∀ c ∈ evaluatedCandidates txs ms, c.length ≤ k) := by
  obtain ⟨j, hjle, h1, h2, hne, hend⟩ := brute_spec tup txs ms
  have hjk : j < k := by
    by_contra hge
    push_neg at hge
    exact (levelEvals_ne_nil_of_le hge (hne j (le_trans hk hge) (le_refl j))) hempty
  refine ⟨?_, ?_, ?_⟩
  · intro p hp
    rw [h2] at hp
    obtain ⟨m, hm, hpm⟩ := List.mem_flatMap.mp hp
    obtain ⟨hc, _, _⟩ := mem_levelEvals.mp hpm
    have hmle : m < 1 + j := (List.mem_range'_1.mp hm).2
    have := (mem_combinations.mp hc).2
    omega
  · intro r hr
    rw [h1] at hr
    obtain ⟨m, hm, hrm⟩ := List.mem_flatMap.mp hr
    obtain ⟨p, hpm, hpr⟩ := List.mem_map.mp hrm
    obtain ⟨hc, _, _⟩ := mem_levelEvals.mp hpm
    have hmle : m < 1 + j := (List.mem_range'_1.mp hm).2
    have hlen : p.1.length = m := (mem_combinations.mp hc).2
    rw [← hpr]
    have : (tup p.1).length = p.1.length := (htup p.1).length_eq
    simp only [this]
    omega
  · obtain ⟨i, hine, hiend, hiev⟩ := evaluated_spec txs ms
    have hik : i < k := by
      by_contra hge
      push_neg at hge
      exact (levelEvals_ne_nil_of_le hge (hine i (le_trans hk hge) (le_refl i))) hempty
    intro c hc
    rw [hiev] at hc
    obtain ⟨m, hm, hcm⟩ := List.mem_flatMap.mp hc
    have hmle : m < 1 + (i + 1) := (List.mem_range'_1.mp hm).2
    have := (mem_combinations.mp hcm).2
    omega

/-- Witness for C5: transactions `[{A}, {B}]` with min_support 1/2 — the only
size-2 candidate `{A, B}` has support 0, so level 2 retains nothing and
nothing of size greater than 2 is recorded or evaluated. -/
theorem claimC5_level_stop_witness :
    ((∀ l : List Char, ((fun l => l) l).Perm l) ∧ 1 ≤ 2 ∧
      levelEvals [['A'],['B']] (1/2) (uniqueItems [['A'],['B']]) 2 = []) ∧
    ((∀ p ∈ (frequent_itemsets_bruteforce (fun l => l) [['A'],['B']] (1/2)).2,
        p.1.length ≤ 2) ∧
      (∀ r ∈ (frequent_itemsets_bruteforce (fun l => l) [['A'],['B']] (1/2)).1,
        r.itemset.length ≤ 2) ∧
      (∀ c ∈ evaluatedCandidates [['A'],['B']] ((1:ℚ)/2), c.length ≤ 2)) :=
  ⟨⟨fun l => List.Perm.refl l, by decide, by decide⟩,
    claimC5_level_stop (fun l => l) [['A'],['B']] (1/2) 2
      (fun l => List.Perm.refl l) (by decide) (by decide)⟩

/-- C6.  The record list of `frequent_itemsets_bruteforce` is the
concatenation, over levels `1..j` in ascending order, of the level-`m`
retained entries in the combination order induced by the sorted item
universe; consequently itemset sizes are non-decreasing along the list (all
size-1 records before all size-2 records, and so on). -/
theorem claimC6_record_order (tup : List α → List α) (txs : List (List α))
    (ms : ℚ) (htup : ∀ l : List α, (tup l).Perm l) :
    (∃ j, (frequent_itemsets_bruteforce tup txs ms).1 =
        (List.range' 1 j).flatMap
          (fun m => (levelEvals txs ms (uniqueItems txs) m).map
            (fun p => ⟨tup p.1, p.2⟩))) ∧
    List.Pairwise (fun a b => a.itemset.length ≤ b.itemset.length)
      (frequent_itemsets_bruteforce tup txs ms).1 := by
  obtain ⟨j, hjle, h1, h2, hne, hend⟩ := brute_spec tup txs ms
  refine ⟨⟨j, h1⟩, ?_⟩
  rw [h1]
  apply pairwise_length_flatMap
  intro m r hr
  obtain ⟨p, hpm, hpr⟩ := List.mem_map.mp hr
  obtain ⟨hc, _, _⟩ := mem_levelEvals.mp hpm
  have hlen : p.1.length = m := (mem_combinations.mp hc).2
  rw [← hpr]
  have : (tup p.1).length = p.1.length := (htup p.1).length_eq
  simp only [this]
  exact hlen

/-- Witness for C6 on the spec scenario. -/
theorem claimC6_record_order_witness :
    (∀ l : List Char, ((fun l => l) l).Perm l) ∧
    ((∃ j, (frequent_itemsets_bruteforce (fun l => l) scenarioTx (1/2)).1 =
        (List.range' 1 j).flatMap
          (fun m => (levelEvals scenarioTx (1/2) (uniqueItems scenarioTx) m).map
            (fun p => ⟨p.1, p.2⟩))) ∧
    List.Pairwise (fun a b => a.itemset.length ≤ b.itemset.length)
      (frequent_itemsets_bruteforce (fun l => l) scenarioTx (1/2)).1) :=
  ⟨fun l => List.Perm.refl l,
    claimC6_record_order (fun l => l) scenarioTx (1/2) (fun l => List.Perm.refl l)⟩

/-- C7.  Support is monotone under itemset inclusion: if every item of `A`
is an item of `B` then the subset-count of `B` is at most that of `A`, and
likewise for the support fraction. -/
theorem claimC7_support_monotone (txs : List (List α)) (A B : List α)
    (hAB : ∀ x ∈ A, x ∈ B) :
    support_count txs B ≤ support_count txs A ∧
      supportOf txs B ≤ supportOf txs A :=
  ⟨support_count_mono txs hAB, supportOf_mono txs hAB⟩

/-- Witness for C7 on the spec scenario with `A = {B}`, `B = {B, C}`. -/
theorem claimC7_support_monotone_witness :
    (∀ x ∈ (['B'] : List Char), x ∈ (['B','C'] : List Char)) ∧
    (support_count scenarioTx ['B','C'] ≤ support_count scenarioTx ['B'] ∧
      supportOf scenarioTx ['B','C'] ≤ supportOf scenarioTx ['B']) :=
  ⟨by decide, claimC7_support_monotone scenarioTx ['B'] ['B','C'] (by decide)⟩

/-- C8.  If no single item reaches min_support (in particular whenever the
transaction list is empty, since then the item universe is empty), the
enumerator returns an empty record list and an empty support table without
error; and on an empty transaction list no candidate itemset exists at any
level, so the support division is never executed with a zero transaction
count. -/
theorem claimC8_empty_inputs (tup : List α → List α) (txs : List (List α))
    (ms : ℚ) (hmax : ∀ i ∈ uniqueItems txs, supportOf txs [i] < ms) :
    frequent_itemsets_bruteforce tup txs ms = ([], []) ∧
    (txs = [] → ∀ k, 1 ≤ k → combinations k (uniqueItems txs) = []) := by
  constructor
  · have h1 : levelEvals txs ms (uniqueItems txs) 1 = [] := by
      rw [List.eq_nil_iff_forall_not_mem]
      intro p hp
      obtain ⟨hc, hsup, _⟩ := mem_levelEvals.mp hp
      rw [combinations_one, List.mem_map] at hc
      obtain ⟨i, hi, hpi⟩ := hc
      rw [← hpi] at hsup
      exact absurd hsup (not_le.mpr (hmax i hi))
    simp [frequent_itemsets_bruteforce, bruteLoop, h1]
  · intro h k hk
    subst h
    cases k with
    | zero => omega
    | succ n => rfl

/-- Witness for C8: a single transaction `{A}` with min_support 2 — the only
item has support 1 < 2, so both outputs are empty. -/
theorem claimC8_empty_inputs_witness :
    (∀ i ∈ uniqueItems [['A']], supportOf [['A']] [i] < 2) ∧
    (frequent_itemsets_bruteforce (fun l => l) [['A']] 2 = ([], []) ∧
      (([['A']] : List (List Char)) = [] →
        ∀ k, 1 ≤ k → combinations k (uniqueItems [['A']]) = [])) :=
  ⟨by decide, claimC8_empty_inputs (fun l => l) [['A']] 2 (by decide)⟩

/-- C9.  On a support table produced by the enumerator with positive
min_support, every non-empty proper canonical subset `A` of a table itemset
`L` of size at least 2 is itself present in the table, with support at least
min_support and in particular positive: the lookup that guards the
confidence division always succeeds with a non-zero value, so the skip
branch of `association_rules_from_frequents` is never taken on
enumerator-produced tables. -/
theorem claimC9_antecedent_present (tup : List α → List α)
    (txs : List (List α)) (ms : ℚ) (hms : 0 < ms) (L A : List α)
    (hL : L ∈ (frequent_itemsets_bruteforce tup txs ms).2.map Prod.fst)
    (hlen : 2 ≤ L.length) (hA : A ≠ []) (hAs : List.Sorted (· < ·) A)
    (hAL : ∀ x ∈ A, x ∈ L) (hAne : A ≠ L) :
    ∃ v, dictGet (frequent_itemsets_bruteforce tup txs ms).2 A = some v ∧
      ms ≤ v ∧ 0 < v := by
  obtain ⟨pL, hpL, hfst⟩ := List.mem_map.mp hL
  obtain ⟨hLsub, hLne, hLval, hLsup⟩ := brute_sound tup txs ms pL hpL
  rw [hfst] at hLsub hLval
  have hAuniv : ∀ x ∈ A, x ∈ uniqueItems txs :=
    fun x hx => hLsub.subset (hAL x hx)
  have hLms : ms ≤ supportOf txs L := hLval ▸ hLsup
  have hAsup : ms ≤ supportOf txs A :=
    le_trans hLms (supportOf_mono txs hAL)
  obtain ⟨hAmem, _⟩ := brute_complete tup txs ms hA hAs hAuniv hAsup
  have hfind : (List.find? (fun p => decide (p.1 = A))
      (frequent_itemsets_bruteforce tup txs ms).2).isSome := by
    rw [List.find?_isSome]
    exact ⟨(A, supportOf txs A), hAmem, by simp⟩
  obtain ⟨q, hq⟩ := Option.isSome_iff_exists.mp hfind
  have hq1 : q.1 = A := by
    have hpred := List.find?_some hq
    simpa using hpred
  have hqmem : q ∈ (frequent_itemsets_bruteforce tup txs ms).2 :=
    List.mem_of_find?_eq_some hq
  obtain ⟨_, _, hqval, hqsup⟩ := brute_sound tup txs ms q hqmem
  refine ⟨q.2, ?_, hqsup, lt_of_lt_of_le hms hqsup⟩
  rw [dictGet, hq]
  rfl

/-- Witness for C9 on the spec scenario with `L = {A, B}`, `A = {A}`. -/
theorem claimC9_antecedent_present_witness :
    ((0:ℚ) < 1/2 ∧
      (['A','B'] : List Char) ∈
        (frequent_itemsets_bruteforce (fun l => l) scenarioTx (1/2)).2.map Prod.fst ∧
      2 ≤ (['A','B'] : List Char).length ∧ (['A'] : List Char) ≠ [] ∧
      List.Sorted (· < ·) (['A'] : List Char) ∧
      (∀ x ∈ (['A'] : List Char), x ∈ (['A','B'] : List Char)) ∧
      (['A'] : List Char) ≠ ['A','B']) ∧
    (∃ v, dictGet (frequent_itemsets_bruteforce (fun l => l) scenarioTx (1/2)).2
        ['A'] = some v ∧ (1:ℚ)/2 ≤ v ∧ 0 < v) :=
  ⟨⟨by decide, by decide, by decide, by decide, by decide, by decide, by decide⟩,
    claimC9_antecedent_present (fun l => l) scenarioTx (1/2) (by decide)
      ['A','B'] ['A'] (by decide) (by decide) (by decide) (by decide)
      (by decide) (by decide)⟩

/-- C10.  The enumerator terminates on every input, including non-positive
min_support: running the level loop with any extra fuel beyond
`|universe| + 1` changes nothing, because level `|universe| + 1` has no
combinations, so the loop always breaks by then (and
`frequent_itemsets_bruteforce` is exactly the `|universe| + 1`-fuel run). -/
theorem claimC10_termination (tup : List α → List α) (txs : List (List α))
    (ms : ℚ) (extra : Nat) :
    bruteLoop tup txs ms (uniqueItems txs)
        ((uniqueItems txs).length + 1 + extra) 1 =
      bruteLoop tup txs ms (uniqueItems txs) ((uniqueItems txs).length + 1) 1 ∧
    combinations ((uniqueItems txs).length + 1) (uniqueItems txs) = [] := by
  obtain ⟨j₁, hj₁, h1₁, h2₁, hne₁, hlt₁, _⟩ :=
    bruteLoop_eq tup txs ms (uniqueItems txs)
      ((uniqueItems txs).length + 1 + extra) 1
  obtain ⟨j₂, hj₂, h1₂, h2₂, hne₂, hlt₂, _⟩ :=
    bruteLoop_eq tup txs ms (uniqueItems txs) ((uniqueItems txs).length + 1) 1
  have hcap : ∀ j : Nat, (∀ m, 1 ≤ m → m < 1 + j →
      levelEvals txs ms (uniqueItems txs) m ≠ []) →
      j ≤ (uniqueItems txs).length := by
    intro j hne
    by_contra hgt
    push_neg at hgt
    exact hne ((uniqueItems txs).length + 1) (by omega) (by omega)
      (levelEvals_eq_nil_of_lt (by omega))
  have hc₁ : j₁ ≤ (uniqueItems txs).length := hcap j₁ hne₁
  have hc₂ : j₂ ≤ (uniqueItems txs).length := hcap j₂ hne₂
  obtain ⟨he₁, hv₁⟩ := hlt₁ (by omega)
  obtain ⟨he₂, hv₂⟩ := hlt₂ (by omega)
  have hj12 : j₁ = j₂ := by
    rcases lt_trichotomy j₁ j₂ with h | h | h
    · exact absurd he₁ (hne₂ (1 + j₁) (by omega) (by omega))
    · exact h
    · exact absurd he₂ (hne₁ (1 + j₂) (by omega) (by omega))
  refine ⟨?_, combinations_eq_nil (by omega)⟩
  refine Prod.ext ?_ (Prod.ext ?_ ?_)
  · rw [h1₁, h1₂, hj12]
  · rw [h2₁, h2₂, hj12]
  · rw [hv₁, hv₂, hj12]

/-- A strictly sorted list is a fixed point of the (non-strict) Python sort. -/
theorem pySorted_eq_of_sorted_lt {l : List α} (h : List.Sorted (· < ·) l) :
    pySorted l = l :=
  List.Sorted.insertionSort_eq (h.imp (fun hab => le_of_lt hab))

/-- C4.  Every rule emitted by `association_rules_from_frequents` (on a table
with canonical frozenset keys and any admissible frozenset iteration order)
has a non-empty sorted antecedent and a non-empty sorted consequent that are
disjoint, whose union is a size-`≥ 2` itemset present in the table, with the
rule support equal to that itemset's table support and the confidence equal
to `support(union)/support(antecedent)` and at least `min_confidence`; and
the returned list is sorted by confidence descending, then support
descending, then antecedent ascending. -/
theorem claimC4_rule_validity (iterOrd : List α → List α)
    (sm : List (List α × ℚ)) (mc : ℚ)
    (hkeys : ∀ K ∈ sm.map Prod.fst, List.Sorted (· < ·) K)
    (hord : ∀ l : List α, (iterOrd l).Perm l) :
    List.Sorted ruleLE (association_rules_from_frequents iterOrd sm mc) ∧
    ∀ ru ∈ association_rules_from_frequents iterOrd sm mc, RuleValid sm mc ru := by
  constructor
  · exact List.sorted_insertionSort ruleLE _
  · intro ru hru
    have hru2 : ru ∈ rulesUnsorted iterOrd sm mc :=
      ((List.perm_insertionSort ruleLE _).mem_iff).mp hru
    simp only [rulesUnsorted, List.mem_flatMap, List.mem_filter,
      decide_eq_true_eq, List.mem_range'_1, List.mem_filterMap] at hru2
    obtain ⟨L, ⟨hLmem, hLlen⟩, r, hr, antecedent, hant, hsome⟩ := hru2
    have hLsorted : List.Sorted (· < ·) L := hkeys L hLmem
    have hfindL : (List.find? (fun p => decide (p.1 = L)) sm).isSome := by
      rw [List.find?_isSome]
      obtain ⟨pL, hpL, hfst⟩ := List.mem_map.mp hLmem
      exact ⟨pL, hpL, by simp [hfst]⟩
    obtain ⟨qL, hqL⟩ := Option.isSome_iff_exists.mp hfindL
    have hdL : dictGet sm L = some qL.2 := by rw [dictGet, hqL]; rfl
    obtain ⟨hantsub, hantlen⟩ := mem_combinations.mp hant
    have hantne : antecedent ≠ [] := by
      intro hnil
      rw [hnil] at hantlen
      simp only [List.length_nil] at hantlen
      omega
    have hantL : ∀ x ∈ antecedent, x ∈ L :=
      fun x hx => (hord L).mem_iff.mp (hantsub.subset hx)
    have hAL : ∀ x ∈ frozen antecedent, x ∈ L :=
      fun x hx => hantL x (mem_frozen.mp hx)
    have hAne : frozen antecedent ≠ [] := frozen_ne_nil hantne
    have hAsorted : List.Sorted (· < ·) (frozen antecedent) :=
      frozen_sorted_lt antecedent
    have hpA : pySorted (frozen antecedent) = frozen antecedent :=
      pySorted_eq_of_sorted_lt hAsorted
    by_cases hB : L.filter (fun x => decide (x ∉ frozen antecedent)) = []
    · rw [if_pos hB] at hsome
      exact absurd hsome (by simp)
    · rw [if_neg hB] at hsome
      have hBsorted : List.Sorted (· < ·)
          (L.filter (fun x => decide (x ∉ frozen antecedent))) :=
        List.Pairwise.sublist (List.filter_sublist L) hLsorted
      have hpB : pySorted (L.filter (fun x => decide (x ∉ frozen antecedent))) =
          L.filter (fun x => decide (x ∉ frozen antecedent)) :=
        pySorted_eq_of_sorted_lt hBsorted
      split at hsome
      · exact absurd hsome (by simp)
      next supA hdA =>
        split at hsome
        · exact absurd hsome (by simp)
        next hz =>
          split at hsome
          next hconf =>
            obtain rfl := (Option.some.inj hsome).symm
            refine ⟨?_, ?_, ?_, ?_, ?_, ?_, ?_, ?_⟩
            · show pySorted (frozen antecedent) ≠ []
              rw [hpA]; exact hAne
            · show pySorted (L.filter _) ≠ []
              rw [hpB]; exact hB
            · intro x hx hx2
              rw [hpA] at hx
              rw [hpB] at hx2
              have := (List.mem_filter.mp hx2).2
              rw [decide_eq_true_eq] at this
              exact this hx
            · show List.Sorted (· ≤ ·) (pySorted (frozen antecedent))
              rw [hpA]
              exact hAsorted.imp (fun hab => le_of_lt hab)
            · show List.Sorted (· ≤ ·) (pySorted (L.filter _))
              rw [hpB]
              exact hBsorted.imp (fun hab => le_of_lt hab)
            · refine ⟨L, hLmem, hLlen, ?_, ?_⟩
              · intro x
                rw [hpA, hpB]
                constructor
                · intro hxL
                  by_cases hxA : x ∈ frozen antecedent
                  · exact Or.inl hxA
                  · exact Or.inr (List.mem_filter.mpr ⟨hxL, by simpa using hxA⟩)
                · rintro (hxA | hxB)
                  · exact hAL x hxA
                  · exact (List.filter_sublist L).subset hxB
              · show dictGet sm L = some ((dictGet sm L).getD 0)
                rw [hdL]
                rfl
            · refine ⟨supA, ?_, hz, rfl⟩
              show dictGet sm (pySorted (frozen antecedent)) = some supA
              rw [hpA]
              exact hdA
            · exact hconf
          · exact absurd hsome (by simp)

/-- Witness for C4, on the support table that the enumerator produces for the
spec scenario with min_support 1/2 and min_confidence 3/5. -/
theorem claimC4_rule_validity_witness :
    ((∀ K ∈ (frequent_itemsets_bruteforce (fun l => l) scenarioTx (1/2)).2.map
        Prod.fst, List.Sorted (· < ·) K) ∧
      (∀ l : List Char, ((fun l => l) l).Perm l)) ∧
    (List.Sorted ruleLE (association_rules_from_frequents (fun l => l)
        (frequent_itemsets_bruteforce (fun l => l) scenarioTx (1/2)).2 (3/5)) ∧
      ∀ ru ∈ association_rules_from_frequents (fun l => l)
          (frequent_itemsets_bruteforce (fun l => l) scenarioTx (1/2)).2 (3/5),
        RuleValid (frequent_itemsets_bruteforce (fun l => l) scenarioTx (1/2)).2
          (3/5) ru) :=
  ⟨⟨by decide, fun l => List.Perm.refl l⟩,
    claimC4_rule_validity (fun l => l)
      (frequent_itemsets_bruteforce (fun l => l) scenarioTx (1/2)).2 (3/5)
      (by decide) (fun l => List.Perm.refl l)⟩

/-- C1 counterexample.  On the spec scenario with min_support 1/2 the code
also retains the size-2 itemset `{B, C}` (support 2/4 = 1/2 ≥ 1/2), which the
claim excludes, and with min_confidence 3/5 it emits four rules (C→B with
confidence 1, then A→B, B→A, B→C with confidence 2/3), not the claimed two. -/
theorem claimC1_counterexample :
    (['B','C'], (1:ℚ)/2) ∈
      (frequent_itemsets_bruteforce (fun l => l) scenarioTx (1/2)).2 ∧
    (association_rules_from_frequents (fun l => l)
      (frequent_itemsets_bruteforce (fun l => l) scenarioTx (1/2)).2
      (3/5)).length = 4 := by
  constructor
  · decide
  · decide

/-- C1 amended.  On the spec scenario with min_support 1/2 the enumerator
returns exactly the records A (3/4), B (3/4), C (1/2), {A,B} (1/2), {B,C}
(1/2) in that order, with the same support table, and no size-3 frequents;
with min_confidence 3/5 the rule deriver then returns exactly the four rules
C→B (confidence 1), A→B, B→A, B→C (confidence 2/3 each, support 1/2),
in that order. -/
theorem claimC1_amended :
    frequent_itemsets_bruteforce (fun l => l) scenarioTx (1/2) =
      ([⟨['A'], 3/4⟩, ⟨['B'], 3/4⟩, ⟨['C'], 1/2⟩, ⟨['A','B'], 1/2⟩,
        ⟨['B','C'], 1/2⟩],
       [(['A'], 3/4), (['B'], 3/4), (['C'], 1/2), (['A','B'], 1/2),
        (['B','C'], 1/2)]) ∧
    association_rules_from_frequents (fun l => l)
        (frequent_itemsets_bruteforce (fun l => l) scenarioTx (1/2)).2 (3/5) =
      [⟨['C'], ['B'], 1/2, 1⟩, ⟨['A'], ['B'], 1/2, 2/3⟩,
       ⟨['B'], ['A'], 1/2, 2/3⟩, ⟨['B'], ['C'], 1/2, 2/3⟩] := by
  constructor
  · decide
  · decide

/-- C3.  The support table is independent of the frozenset iteration order,
but the record list is not: the sorted-order run and the reversed-order run —
both admissible, and realised by different string hash seeds across CPython
processes — produce different `itemset` tuples for the very same frequent
itemsets on the spec scenario.  Repeated runs are therefore not byte-identical
in the element order inside recorded itemset tuples. -/
theorem claimC3_iteration_order_dependence :
    (∀ l : List Char, l.reverse.Perm l) ∧
    (frequent_itemsets_bruteforce List.reverse scenarioTx (1/2)).1 ≠
      (frequent_itemsets_bruteforce (fun l => l) scenarioTx (1/2)).1 ∧
    (frequent_itemsets_bruteforce List.reverse scenarioTx (1/2)).2 =
      (frequent_itemsets_bruteforce (fun l => l) scenarioTx (1/2)).2 :=
  ⟨fun l => List.reverse_perm l, by decide, by decide⟩

end BruteForce
